import Mathlib

/-!
Verification development for the ngsxfem classification-and-restriction
engine as documented by the repository notebooks (tutorials.ipynb,
cutfem.ipynb).  The notebooks call the library through a narrow interface
and document its semantics (domain-type tables, facet truth tables, the
cut-ratio convention, compression and restricted assembly); the
implementations themselves are not part of the repository sources, so the
definitions below are shallow models built from those documented semantics.
Field values and coefficients are modelled as rationals.
-/

namespace NgsXFem

/-- Base per-element domain classification: NEG (level set negative on the
whole element), POS (positive on the whole element), IF (zero somewhere on
the element). -/
inductive DOMAIN_TYPE
| NEG
| POS
| IF
deriving DecidableEq, Repr

/-- Combined domain types: the 8 bitmask combinations of IF/POS/NEG named
in tutorials.ipynb (NO, NEG, POS, UNCUT, IF, HASNEG, HASPOS, ANY). -/
inductive COMBINED_DOMAIN_TYPE
| NO
| CDOM_NEG
| CDOM_POS
| UNCUT
| CDOM_IF
| HASNEG
| HASPOS
| ANY
deriving DecidableEq, Repr

/-- Modelled from the spec: the bit carried by a base classification inside
a combined-domain-type mask (NEG is bit 1, POS is bit 2, IF is bit 4), per
the bit table printed in tutorials.ipynb. -/
def dtBit : DOMAIN_TYPE → ℕ
| DOMAIN_TYPE.NEG => 1
| DOMAIN_TYPE.POS => 2
| DOMAIN_TYPE.IF => 4

/-- Modelled from the spec: the 3-bit mask of each combined domain type,
matching the IF|POS|NEG table of tutorials.ipynb (values 0 through 7). -/
def cdtMask : COMBINED_DOMAIN_TYPE → ℕ
| COMBINED_DOMAIN_TYPE.NO => 0
| COMBINED_DOMAIN_TYPE.CDOM_NEG => 1
| COMBINED_DOMAIN_TYPE.CDOM_POS => 2
| COMBINED_DOMAIN_TYPE.UNCUT => 3
| COMBINED_DOMAIN_TYPE.CDOM_IF => 4
| COMBINED_DOMAIN_TYPE.HASNEG => 5
| COMBINED_DOMAIN_TYPE.HASPOS => 6
| COMBINED_DOMAIN_TYPE.ANY => 7

/-- Modelled from the spec: classification of one element from the values
of the piecewise-linear level set at its vertices, per tutorials.ipynb:
NEG iff the field is negative everywhere on the element (all vertex values
negative), POS iff positive everywhere, IF otherwise (a linear field on a
simplex vanishes somewhere iff it is neither everywhere negative nor
everywhere positive). -/
def classify (vals : List ℚ) : DOMAIN_TYPE :=
  if vals.all (fun v => v < 0) then DOMAIN_TYPE.NEG
  else if vals.all (fun v => 0 < v) then DOMAIN_TYPE.POS
  else DOMAIN_TYPE.IF

/-- Background mesh: element-to-vertex connectivity, consumed from the mesh
provider. -/
structure Mesh where
  nelem : ℕ
  elemVerts : ℕ → List ℕ

/-- Nodal piecewise-linear level-set field: vertex values together with a
generation counter bumped at every mutation. -/
structure LevelSetField where
  vals : ℕ → ℚ
  gen : ℕ

/-- Classification of element e of mesh m under field phi. -/
def elemClassify (m : Mesh) (phi : LevelSetField) (e : ℕ) : DOMAIN_TYPE :=
  classify ((m.elemVerts e).map phi.vals)

/-- Decidable membership of element e in the combined type dt: the bit of
the base classification is tested against the 3-bit mask of dt. -/
def elemOfTypeB (m : Mesh) (phi : LevelSetField) (dt : COMBINED_DOMAIN_TYPE)
    (e : ℕ) : Bool :=
  decide (Nat.land (dtBit (elemClassify m phi e)) (cdtMask dt) ≠ 0)

/-- Modelled from the spec: CutInfo.GetElementsOfType, returning the
BitArray of elements whose classification bit matches the mask of the
requested combined domain type. -/
def GetElementsOfType (m : Mesh) (phi : LevelSetField)
    (dt : COMBINED_DOMAIN_TYPE) : List Bool :=
  (List.range m.nelem).map (elemOfTypeB m phi dt)

/-- BitSet inclusion: every set bit of a is a set bit of b (out-of-range
reads default to false, matching BitArray access). -/
def bsSubset (a b : List Bool) : Prop :=
  ∀ i : ℕ, a.getD i false = true → b.getD i false = true

theorem getD_getElementsOfType (m : Mesh) (phi : LevelSetField)
    (dt : COMBINED_DOMAIN_TYPE) (i : ℕ) :
    (GetElementsOfType m phi dt).getD i false =
      if i < m.nelem then elemOfTypeB m phi dt i else false := by
  by_cases h : i < m.nelem
  · rw [GetElementsOfType, List.getD_eq_getElem _ _ (by simpa using h),
      List.getElem_map, List.getElem_range, if_pos h]
  · rw [GetElementsOfType, List.getD_eq_default _ _ (by simpa using Nat.le_of_not_lt h),
      if_neg h]

theorem elemOfTypeB_mono (d : DOMAIN_TYPE) (dt1 dt2 : COMBINED_DOMAIN_TYPE)
    (h : Nat.land (cdtMask dt1) (cdtMask dt2) = cdtMask dt1)
    (hd : decide (Nat.land (dtBit d) (cdtMask dt1) ≠ 0) = true) :
    decide (Nat.land (dtBit d) (cdtMask dt2) ≠ 0) = true := by
  revert h hd
  cases d <;> cases dt1 <;> cases dt2 <;> decide

theorem bsSubset_getElementsOfType (m : Mesh) (phi : LevelSetField)
    (dt1 dt2 : COMBINED_DOMAIN_TYPE)
    (h : Nat.land (cdtMask dt1) (cdtMask dt2) = cdtMask dt1) :
    bsSubset (GetElementsOfType m phi dt1) (GetElementsOfType m phi dt2) := by
  intro i hi
  rw [getD_getElementsOfType] at hi ⊢
  by_cases hlt : i < m.nelem
  · rw [if_pos hlt] at hi ⊢
    exact elemOfTypeB_mono _ _ _ h hi
  · rw [if_neg hlt] at hi
    exact absurd hi (by simp)

/-- C2: for combined domain types dt1 and dt2 whose bitmasks are in subset
relation, GetElementsOfType dt1 is a BitSet subset of GetElementsOfType
dt2, on every mesh and field. -/
theorem getElementsOfType_mono (m : Mesh) (phi : LevelSetField)
    (dt1 dt2 : COMBINED_DOMAIN_TYPE)
    (h : Nat.land (cdtMask dt1) (cdtMask dt2) = cdtMask dt1) :
    bsSubset (GetElementsOfType m phi dt1) (GetElementsOfType m phi dt2) :=
  bsSubset_getElementsOfType m phi dt1 dt2 h

/-- Witness for C2 on a concrete two-element mesh (one NEG, one IF element)
with dt1 = NEG and dt2 = HASNEG. -/
theorem getElementsOfType_mono_witness :
    bsSubset
      (GetElementsOfType ⟨2, fun e => if e = 0 then [0, 1] else [1, 2]⟩
        ⟨fun v => if v = 2 then 1 else -1, 0⟩ COMBINED_DOMAIN_TYPE.CDOM_NEG)
      (GetElementsOfType ⟨2, fun e => if e = 0 then [0, 1] else [1, 2]⟩
        ⟨fun v => if v = 2 then 1 else -1, 0⟩ COMBINED_DOMAIN_TYPE.HASNEG) :=
  getElementsOfType_mono _ _ _ _ (by decide)

theorem elemOfTypeB_or_split (m : Mesh) (phi : LevelSetField) (e : ℕ)
    (dt dta dtb : COMBINED_DOMAIN_TYPE)
    (h : ∀ d : DOMAIN_TYPE,
      decide (Nat.land (dtBit d) (cdtMask dt) ≠ 0) =
        (decide (Nat.land (dtBit d) (cdtMask dta) ≠ 0) ||
          decide (Nat.land (dtBit d) (cdtMask dtb) ≠ 0))) :
    elemOfTypeB m phi dt e = (elemOfTypeB m phi dta e || elemOfTypeB m phi dtb e) := by
  unfold elemOfTypeB
  exact h (elemClassify m phi e)

/-- C9: the base tags partition the elements (each element carries exactly
one of NEG, POS, IF); GetElementsOfType ANY holds on every element and NO
on none; UNCUT, HASNEG, HASPOS are the pointwise unions NEG or POS, NEG or
IF, POS or IF; and the combined flags are encoded as the 3-bit masks 0
through 7 with NEG bit 1, POS bit 2, IF bit 4. -/
theorem combined_types_partition (m : Mesh) (phi : LevelSetField) :
    (dtBit DOMAIN_TYPE.NEG = 1 ∧ dtBit DOMAIN_TYPE.POS = 2 ∧
      dtBit DOMAIN_TYPE.IF = 4 ∧
      (List.map cdtMask [COMBINED_DOMAIN_TYPE.NO, COMBINED_DOMAIN_TYPE.CDOM_NEG,
        COMBINED_DOMAIN_TYPE.CDOM_POS, COMBINED_DOMAIN_TYPE.UNCUT,
        COMBINED_DOMAIN_TYPE.CDOM_IF, COMBINED_DOMAIN_TYPE.HASNEG,
        COMBINED_DOMAIN_TYPE.HASPOS, COMBINED_DOMAIN_TYPE.ANY]) =
        [0, 1, 2, 3, 4, 5, 6, 7]) ∧
    (∀ e : ℕ,
      (elemOfTypeB m phi COMBINED_DOMAIN_TYPE.CDOM_NEG e).toNat +
        (elemOfTypeB m phi COMBINED_DOMAIN_TYPE.CDOM_POS e).toNat +
        (elemOfTypeB m phi COMBINED_DOMAIN_TYPE.CDOM_IF e).toNat = 1) ∧
    (∀ i : ℕ, i < m.nelem →
      (GetElementsOfType m phi COMBINED_DOMAIN_TYPE.ANY).getD i false = true) ∧
    (∀ i : ℕ,
      (GetElementsOfType m phi COMBINED_DOMAIN_TYPE.NO).getD i false = false) ∧
    (∀ i : ℕ,
      (GetElementsOfType m phi COMBINED_DOMAIN_TYPE.UNCUT).getD i false =
        ((GetElementsOfType m phi COMBINED_DOMAIN_TYPE.CDOM_NEG).getD i false ||
          (GetElementsOfType m phi COMBINED_DOMAIN_TYPE.CDOM_POS).getD i false)) ∧
    (∀ i : ℕ,
      (GetElementsOfType m phi COMBINED_DOMAIN_TYPE.HASNEG).getD i false =
        ((GetElementsOfType m phi COMBINED_DOMAIN_TYPE.CDOM_NEG).getD i false ||
          (GetElementsOfType m phi COMBINED_DOMAIN_TYPE.CDOM_IF).getD i false)) ∧
    (∀ i : ℕ,
      (GetElementsOfType m phi COMBINED_DOMAIN_TYPE.HASPOS).getD i false =
        ((GetElementsOfType m phi COMBINED_DOMAIN_TYPE.CDOM_POS).getD i false ||
          (GetElementsOfType m phi COMBINED_DOMAIN_TYPE.CDOM_IF).getD i false)) := by
  refine ⟨by decide, ?_, ?_, ?_, ?_, ?_, ?_⟩
  · intro e
    unfold elemOfTypeB
    cases elemClassify m phi e <;> decide
  · intro i hi
    rw [getD_getElementsOfType, if_pos hi]
    unfold elemOfTypeB
    cases elemClassify m phi i <;> decide
  · intro i
    rw [getD_getElementsOfType]
    by_cases hi : i < m.nelem
    · rw [if_pos hi]
      unfold elemOfTypeB
      cases elemClassify m phi i <;> decide
    · rw [if_neg hi]
  · intro i
    rw [getD_getElementsOfType, getD_getElementsOfType, getD_getElementsOfType]
    by_cases hi : i < m.nelem
    · rw [if_pos hi, if_pos hi, if_pos hi]
      exact elemOfTypeB_or_split m phi i _ _ _ (by intro d; cases d <;> decide)
    · rw [if_neg hi, if_neg hi, if_neg hi]
      rfl
  · intro i
    rw [getD_getElementsOfType, getD_getElementsOfType, getD_getElementsOfType]
    by_cases hi : i < m.nelem
    · rw [if_pos hi, if_pos hi, if_pos hi]
      exact elemOfTypeB_or_split m phi i _ _ _ (by intro d; cases d <;> decide)
    · rw [if_neg hi, if_neg hi, if_neg hi]
      rfl
  · intro i
    rw [getD_getElementsOfType, getD_getElementsOfType, getD_getElementsOfType]
    by_cases hi : i < m.nelem
    · rw [if_pos hi, if_pos hi, if_pos hi]
      exact elemOfTypeB_or_split m phi i _ _ _ (by intro d; cases d <;> decide)
    · rw [if_neg hi, if_neg hi, if_neg hi]
      rfl

/-- Witness for C9: the ANY BitSet is true at element 0 of a concrete
one-element mesh, by the partition theorem. -/
theorem combined_types_partition_witness :
    (GetElementsOfType ⟨1, fun _ => [0, 1, 2]⟩
      ⟨fun v => if v = 0 then -1 else 1, 0⟩
        COMBINED_DOMAIN_TYPE.ANY).getD 0 false = true :=
  (combined_types_partition ⟨1, fun _ => [0, 1, 2]⟩
    ⟨fun v => if v = 0 then -1 else 1, 0⟩).2.2.1 0 (by decide)

/-- Modelled from the spec: CutRatioGF, the per-element cut-ratio field of
cutfem.ipynb.  For an IF element the negative-volume fraction is obtained
from a geometric decomposition of the element (supplied here as the
parameter decompose); NEG and POS elements short-circuit to 1 and 0 without
invoking the decomposition. -/
def CutRatioGF (decompose : List ℚ → ℚ) (vals : List ℚ) : ℚ :=
  match classify vals with
  | DOMAIN_TYPE.NEG => 1
  | DOMAIN_TYPE.POS => 0
  | DOMAIN_TYPE.IF => decompose vals

/-- Positive-side cut ratio, defined in cutfem.ipynb by the line
kappa = (kappaminus, 1 - kappaminus). -/
def kappaPlus (decompose : List ℚ → ℚ) (vals : List ℚ) : ℚ :=
  1 - CutRatioGF decompose vals

/-- C1: on every element the two cut ratios sum to 1 within tolerance
1e-12 (in fact exactly); a NEG element has cut ratio 1 and a POS element
cut ratio 0, and on such elements the result does not depend on the
geometric decomposition at all. -/
theorem cutRatio_sum_and_shortcircuit (decompose : List ℚ → ℚ) (vals : List ℚ) :
    |CutRatioGF decompose vals + kappaPlus decompose vals - 1| ≤ 1 / 10 ^ 12 ∧
    (classify vals = DOMAIN_TYPE.NEG →
      CutRatioGF decompose vals = 1 ∧
      ∀ decompose2 : List ℚ → ℚ, CutRatioGF decompose2 vals = 1) ∧
    (classify vals = DOMAIN_TYPE.POS →
      CutRatioGF decompose vals = 0 ∧
      ∀ decompose2 : List ℚ → ℚ, CutRatioGF decompose2 vals = 0) := by
  refine ⟨?_, ?_, ?_⟩
  · have h : CutRatioGF decompose vals + kappaPlus decompose vals - 1 = 0 := by
      unfold kappaPlus
      ring
    rw [h]
    norm_num
  · intro h
    constructor
    · unfold CutRatioGF
      rw [h]
    · intro decompose2
      unfold CutRatioGF
      rw [h]
  · intro h
    constructor
    · unfold CutRatioGF
      rw [h]
    · intro decompose2
      unfold CutRatioGF
      rw [h]

/-- Witness for C1 at concrete elements: an all-negative element gets cut
ratio 1 and an all-positive element gets 0, independently of the
decomposition routine. -/
theorem cutRatio_sum_and_shortcircuit_witness :
    CutRatioGF (fun _ => 1 / 2) [-1, -2] = 1 ∧
    CutRatioGF (fun _ => 1 / 2) [3, 4] = 0 :=
  ⟨((cutRatio_sum_and_shortcircuit (fun _ => 1 / 2) [-1, -2]).2.1 (by decide)).1,
   ((cutRatio_sum_and_shortcircuit (fun _ => 1 / 2) [3, 4]).2.2 (by decide)).1⟩

/-- Facet-to-element adjacency: an interior facet has two incident
elements, a boundary facet one. -/
inductive FacetNbrs
| interior (l r : ℕ)
| bnd (l : ℕ)
deriving DecidableEq, Repr

/-- Facet list of a mesh, consumed from the mesh provider. -/
structure FacetMesh where
  facets : List FacetNbrs

/-- Combination of the two neighbor states of a facet, per the truth table
in tutorials.ipynb: with use_and the facet is marked iff
(A(left) and B(right)) or (B(left) and A(right)); without, iff
(A(left) or B(right)) or (B(left) or A(right)). -/
def neighborVal (useAnd aL bR bL aR : Bool) : Bool :=
  if useAnd then (aL && bR) || (bL && aR) else (aL || bR) || (bL || aR)

/-- Mark of one facet: interior facets combine the two neighbor states; for
a boundary facet the missing side is substituted by bndValA for the A-state
and bndValB for the B-state. -/
def facetTest (A B : ℕ → Bool) (useAnd bndValA bndValB : Bool) :
    FacetNbrs → Bool
| FacetNbrs.interior l r => neighborVal useAnd (A l) (B r) (B l) (A r)
| FacetNbrs.bnd l => neighborVal useAnd (A l) bndValB (B l) bndValA

/-- Modelled from the spec: GetFacetsWithNeighborTypes, marking the facets
whose neighbor elements match the sets A and B under the chosen
combination logic and boundary substitution values. -/
def GetFacetsWithNeighborTypes (msh : FacetMesh) (A B : ℕ → Bool)
    (useAnd bndValA bndValB : Bool) : List Bool :=
  msh.facets.map (facetTest A B useAnd bndValA bndValB)

/-- Counterexample to C3: on a mesh with a single boundary facet, with
useAnd true, bndValA true and bndValB false, swapping the element sets A
and B (all-true versus all-false) changes the result, so the operation is
not symmetric in A and B alone. -/
theorem facetTypes_swap_counterexample :
    GetFacetsWithNeighborTypes ⟨[FacetNbrs.bnd 0]⟩
        (fun _ => true) (fun _ => false) true true false ≠
      GetFacetsWithNeighborTypes ⟨[FacetNbrs.bnd 0]⟩
        (fun _ => false) (fun _ => true) true true false := by
  decide

/-- C3 amended: GetFacetsWithNeighborTypes is symmetric under swapping the
element sets A and B together with the boundary values bndValA and bndValB;
in particular, whenever bndValA = bndValB (as in the default call), it is
symmetric under swapping A and B alone, and on meshes without boundary
facets it is symmetric unconditionally. -/
theorem facetTypes_swap_symm (msh : FacetMesh) (A B : ℕ → Bool)
    (useAnd bndValA bndValB : Bool) :
    GetFacetsWithNeighborTypes msh A B useAnd bndValA bndValB =
      GetFacetsWithNeighborTypes msh B A useAnd bndValB bndValA ∧
    (bndValA = bndValB →
      GetFacetsWithNeighborTypes msh A B useAnd bndValA bndValB =
        GetFacetsWithNeighborTypes msh B A useAnd bndValA bndValB) := by
  have key : GetFacetsWithNeighborTypes msh A B useAnd bndValA bndValB =
      GetFacetsWithNeighborTypes msh B A useAnd bndValB bndValA := by
    unfold GetFacetsWithNeighborTypes
    apply List.map_congr_left
    intro f _
    cases f with
    | interior l r =>
      show neighborVal useAnd (A l) (B r) (B l) (A r) =
        neighborVal useAnd (B l) (A r) (A l) (B r)
      unfold neighborVal
      cases useAnd <;> cases A l <;> cases B r <;> cases B l <;> cases A r <;> rfl
    | bnd l =>
      show neighborVal useAnd (A l) bndValB (B l) bndValA =
        neighborVal useAnd (B l) bndValA (A l) bndValB
      unfold neighborVal
      cases useAnd <;> cases A l <;> cases B l <;> cases bndValA <;>
        cases bndValB <;> rfl
  refine ⟨key, ?_⟩
  intro hab
  rw [key, hab]

/-- Witness for C3 amended: with equal boundary values the swap of A and B
leaves the facet marks unchanged on a concrete mesh with one interior and
one boundary facet. -/
theorem facetTypes_swap_symm_witness :
    GetFacetsWithNeighborTypes ⟨[FacetNbrs.interior 0 1, FacetNbrs.bnd 1]⟩
        (fun e => e = 0) (fun e => e = 1) true true true =
      GetFacetsWithNeighborTypes ⟨[FacetNbrs.interior 0 1, FacetNbrs.bnd 1]⟩
        (fun e => e = 1) (fun e => e = 0) true true true :=
  (facetTypes_swap_symm ⟨[FacetNbrs.interior 0 1, FacetNbrs.bnd 1]⟩
    (fun e => e = 0) (fun e => e = 1) true true true).2 rfl

/-- Modelled from the spec: point evaluation of the composed solution in
cutfem.ipynb, which selects the positive-side component wherever the
piecewise-linear level set is nonnegative and the negative-side component
where it is negative (u = u_minus iff the field value is below zero). -/
def composedSolution (phiVal uneg upos : ℚ) : ℚ :=
  if 0 ≤ phiVal then upos else uneg

/-- C10: classification uses strict inequalities (NEG exactly when the
field is negative at every vertex, POS exactly when positive at every
vertex, for a nonempty vertex list), so an element whose field vanishes at
any vertex is classified IF; and the composed solution assigns points with
nonnegative field value to the positive-side component and points with
negative value to the negative-side component. -/
theorem classify_strict_and_zero_tiebreak :
    (∀ vals : List ℚ, (0 : ℚ) ∈ vals → classify vals = DOMAIN_TYPE.IF) ∧
    (∀ vals : List ℚ,
      classify vals = DOMAIN_TYPE.NEG ↔ vals.all (fun v => v < 0) = true) ∧
    (∀ vals : List ℚ, vals ≠ [] →
      (classify vals = DOMAIN_TYPE.POS ↔ vals.all (fun v => 0 < v) = true)) ∧
    (∀ phiVal uneg upos : ℚ, 0 ≤ phiVal →
      composedSolution phiVal uneg upos = upos) ∧
    (∀ phiVal uneg upos : ℚ, phiVal < 0 →
      composedSolution phiVal uneg upos = uneg) := by
  refine ⟨?_, ?_, ?_, ?_, ?_⟩
  · intro vals h0
    have hneg : vals.all (fun v => v < 0) = false := by
      rw [List.all_eq_false]
      exact ⟨0, h0, by simp⟩
    have hpos : vals.all (fun v => (0 : ℚ) < v) = false := by
      rw [List.all_eq_false]
      exact ⟨0, h0, by simp⟩
    unfold classify
    rw [hneg, hpos]
    rfl
  · intro vals
    constructor
    · intro h
      by_contra hneg
      unfold classify at h
      rw [Bool.eq_false_iff.mpr hneg] at h
      by_cases hpos : vals.all (fun v => (0 : ℚ) < v) = true
      · rw [if_neg (by simp), hpos, if_pos rfl] at h
        exact DOMAIN_TYPE.noConfusion h
      · rw [if_neg (by simp), Bool.eq_false_iff.mpr hpos, if_neg (by simp)] at h
        exact DOMAIN_TYPE.noConfusion h
    · intro h
      unfold classify
      rw [h, if_pos rfl]
  · intro vals hne
    constructor
    · intro h
      by_contra hpos
      unfold classify at h
      by_cases hneg : vals.all (fun v => v < (0 : ℚ)) = true
      · rw [hneg, if_pos rfl] at h
        exact DOMAIN_TYPE.noConfusion h
      · rw [Bool.eq_false_iff.mpr hneg, if_neg (by simp),
          Bool.eq_false_iff.mpr hpos, if_neg (by simp)] at h
        exact DOMAIN_TYPE.noConfusion h
    · intro h
      have hneg : vals.all (fun v => v < 0) = false := by
        cases vals with
        | nil => exact absurd rfl hne
        | cons a l =>
          rw [List.all_eq_false]
          have ha : (0 : ℚ) < a := by
            have := List.all_eq_true.mp h a (List.mem_cons_self a l)
            simpa using this
          exact ⟨a, List.mem_cons_self a l, by simp [not_lt.mpr (le_of_lt ha)]⟩
      unfold classify
      rw [hneg, if_neg (by simp), h, if_pos rfl]
  · intro phiVal uneg upos h
    unfold composedSolution
    rw [if_pos h]
  · intro phiVal uneg upos h
    unfold composedSolution
    rw [if_neg (not_le.mpr h)]

/-- Witness for C10: an element with the value zero at a single vertex is
classified IF, and a point with field value exactly zero evaluates to the
positive-side component. -/
theorem classify_strict_and_zero_tiebreak_witness :
    classify [-1, 0, 1] = DOMAIN_TYPE.IF ∧
    composedSolution 0 5 7 = 7 :=
  ⟨classify_strict_and_zero_tiebreak.1 [-1, 0, 1] (by norm_num),
   classify_strict_and_zero_tiebreak.2.2.2.1 0 5 7 (by norm_num)⟩

/-- Finite-element space as consumed from the FE-space provider: the total
dof count and the per-element local-to-global dof lists. -/
structure FESpaceM where
  ndof : ℕ
  elemDofs : List (List ℕ)

/-- Decidable test that dof d has support on at least one element of the
element set elset (one of the elements listing d among its dofs). -/
def hasDofOnElems (sp : FESpaceM) (elset : List Bool) (d : ℕ) : Bool :=
  (List.range sp.elemDofs.length).any
    (fun e => elset.getD e false && (sp.elemDofs.getD e []).contains d)

/-- Modelled from the spec: GetDofsOfElements, the BitSet of dofs whose
basis function has support on at least one element of the given element
set. -/
def GetDofsOfElements (sp : FESpaceM) (elset : List Bool) : List Bool :=
  (List.range sp.ndof).map (hasDofOnElems sp elset)

theorem getD_getDofsOfElements (sp : FESpaceM) (elset : List Bool) (i : ℕ) :
    (GetDofsOfElements sp elset).getD i false =
      if i < sp.ndof then hasDofOnElems sp elset i else false := by
  by_cases h : i < sp.ndof
  · rw [GetDofsOfElements, List.getD_eq_getElem _ _ (by simpa using h),
      List.getElem_map, List.getElem_range, if_pos h]
  · rw [GetDofsOfElements, List.getD_eq_default _ _ (by simpa using Nat.le_of_not_lt h),
      if_neg h]

theorem hasDofOnElems_mono (sp : FESpaceM) (elset1 elset2 : List Bool)
    (h : bsSubset elset1 elset2) (d : ℕ)
    (hd : hasDofOnElems sp elset1 d = true) :
    hasDofOnElems sp elset2 d = true := by
  rw [hasDofOnElems, List.any_eq_true] at hd ⊢
  obtain ⟨e, he, hcond⟩ := hd
  rw [Bool.and_eq_true] at hcond
  exact ⟨e, he, by rw [Bool.and_eq_true]; exact ⟨h e hcond.1, hcond.2⟩⟩

/-- C4: dof selection is monotone under element-set inclusion: if
elementSet1 is a BitSet subset of elementSet2 then GetDofsOfElements of the
first is a BitSet subset of GetDofsOfElements of the second. -/
theorem getDofsOfElements_mono (sp : FESpaceM) (elset1 elset2 : List Bool)
    (h : bsSubset elset1 elset2) :
    bsSubset (GetDofsOfElements sp elset1) (GetDofsOfElements sp elset2) := by
  intro i hi
  rw [getD_getDofsOfElements] at hi ⊢
  by_cases hlt : i < sp.ndof
  · rw [if_pos hlt] at hi ⊢
    exact hasDofOnElems_mono sp elset1 elset2 h i hi
  · rw [if_neg hlt] at hi
    exact absurd hi (by simp)

/-- Witness for C4 on a concrete two-element space with a singleton element
set contained in the full element set. -/
theorem getDofsOfElements_mono_witness :
    bsSubset (GetDofsOfElements ⟨3, [[0, 1], [1, 2]]⟩ [true, false])
      (GetDofsOfElements ⟨3, [[0, 1], [1, 2]]⟩ [true, true]) :=
  getDofsOfElements_mono ⟨3, [[0, 1], [1, 2]]⟩ [true, false] [true, true]
    (by intro i; cases i with
        | zero => simp
        | succ n => cases n with
          | zero => simp
          | succ k => simp [List.getD])

/-- Population count of a BitSet: the number of true bits. -/
def popcount (mask : List Bool) : ℕ := (mask.filter (fun b => b)).length

/-- Indices of the active (true) bits of a mask, in increasing order; this
is the new-to-old index map of the compressed space. -/
def activeDofs (mask : List Bool) : List ℕ :=
  (List.range mask.length).filter (fun i => mask.getD i false)

/-- Renumbered sub-space produced by compression: its dof count, the
new-to-old index list, and the element dof lists rewritten through the
renumbering. -/
structure CompressedSpace where
  ndof : ℕ
  newToOld : List ℕ
  elemDofs : List (List ℕ)

/-- Old-to-new dof index map of compression: an active old dof is sent to
its position among the active dofs; an inactive dof has no image. -/
def oldToNew (mask : List Bool) (i : ℕ) : Option ℕ :=
  if mask.getD i false then some (List.indexOf i (activeDofs mask)) else none

/-- Modelled from the spec: Compress, returning the renumbered sub-space
containing only the dofs active in the mask. -/
def Compress (sp : FESpaceM) (mask : List Bool) : CompressedSpace :=
  ⟨(activeDofs mask).length, activeDofs mask,
    sp.elemDofs.map (List.filterMap (oldToNew mask))⟩

theorem getD_true_lt_length (mask : List Bool) (i : ℕ)
    (h : mask.getD i false = true) : i < mask.length := by
  by_contra hlt
  rw [List.getD_eq_default _ _ (Nat.le_of_not_lt hlt)] at h
  exact Bool.false_ne_true h

theorem mem_activeDofs (mask : List Bool) (i : ℕ) :
    i ∈ activeDofs mask ↔ mask.getD i false = true := by
  rw [activeDofs, List.mem_filter, List.mem_range]
  constructor
  · intro h
    exact h.2
  · intro h
    exact ⟨getD_true_lt_length mask i h, h⟩

theorem activeDofs_nodup (mask : List Bool) : (activeDofs mask).Nodup :=
  (List.nodup_range mask.length).filter _

theorem activeDofs_length (mask : List Bool) :
    (activeDofs mask).length = popcount mask := by
  induction mask with
  | nil => rfl
  | cons b t ih =>
    have hrange : List.range (t.length + 1) =
        0 :: List.map Nat.succ (List.range t.length) := List.range_succ_eq_map _
    have hmapfilter :
        ((List.map Nat.succ (List.range t.length)).filter
            (fun i => (b :: t).getD i false)) =
          List.map Nat.succ ((List.range t.length).filter
            (fun i => t.getD i false)) := by
      rw [List.filter_map]
      rfl
    unfold activeDofs at ih ⊢
    unfold popcount at ih ⊢
    rw [List.length_cons, hrange, List.filter_cons, List.filter_cons]
    cases b with
    | false =>
      simp only [List.getD_cons_zero]
      rw [if_neg (by simp), if_neg (by simp), hmapfilter, List.length_map, ih]
    | true =>
      simp only [List.getD_cons_zero]
      rw [if_pos trivial, if_pos trivial, List.length_cons, List.length_cons,
        hmapfilter, List.length_map, ih]

/-- C5: compression has exactly popcount(mask) dofs; inactive dofs have no
image under the old-to-new map; every active old dof is sent to a new index
below the compressed dof count from which the new-to-old list recovers it
(old to new to old is the identity); and every new index arises this way
from a unique active old dof (bijectivity). -/
theorem compress_spec (sp : FESpaceM) (mask : List Bool) :
    (Compress sp mask).ndof = popcount mask ∧
    (∀ i : ℕ, mask.getD i false = false → oldToNew mask i = none) ∧
    (∀ i : ℕ, mask.getD i false = true →
      ∃ n : ℕ, oldToNew mask i = some n ∧ n < (Compress sp mask).ndof ∧
        (Compress sp mask).newToOld.getD n 0 = i) ∧
    (∀ n : ℕ, n < (Compress sp mask).ndof →
      ∃ i : ℕ, mask.getD i false = true ∧ oldToNew mask i = some n ∧
        (Compress sp mask).newToOld.getD n 0 = i) := by
  refine ⟨activeDofs_length mask, ?_, ?_, ?_⟩
  · intro i h
    rw [oldToNew, h]
    rfl
  · intro i h
    have hmem : i ∈ activeDofs mask := (mem_activeDofs mask i).mpr h
    have hlt : List.indexOf i (activeDofs mask) < (activeDofs mask).length :=
      List.indexOf_lt_length.mpr hmem
    refine ⟨List.indexOf i (activeDofs mask), ?_, hlt, ?_⟩
    · rw [oldToNew, h]
      rfl
    · show (activeDofs mask).getD _ 0 = i
      rw [List.getD_eq_get _ _ hlt]
      exact List.indexOf_get hlt
  · intro n hn
    have hn2 : n < (activeDofs mask).length := hn
    refine ⟨(activeDofs mask).get ⟨n, hn2⟩, ?_, ?_, ?_⟩
    · exact (mem_activeDofs mask _).mp (List.get_mem _ _ _)
    · have hact : mask.getD ((activeDofs mask).get ⟨n, hn2⟩) false = true :=
        (mem_activeDofs mask _).mp (List.get_mem _ _ _)
      rw [oldToNew, hact, if_pos rfl]
      congr 1
      have := List.indexOf_getElem (activeDofs_nodup mask) n hn2
      simpa using this
    · show (activeDofs mask).getD n 0 = _
      rw [List.getD_eq_get _ _ hn2]

/-- Witness for C5 at the concrete mask [true, false, true]: the compressed
space has 2 dofs and old dof 2 round-trips through new index 1. -/
theorem compress_spec_witness :
    (Compress ⟨3, [[0, 1], [1, 2]]⟩ [true, false, true]).ndof =
      popcount [true, false, true] ∧
    oldToNew [true, false, true] 1 = none ∧
    (∃ n : ℕ, oldToNew [true, false, true] 2 = some n ∧
      n < (Compress ⟨3, [[0, 1], [1, 2]]⟩ [true, false, true]).ndof ∧
      (Compress ⟨3, [[0, 1], [1, 2]]⟩ [true, false, true]).newToOld.getD n 0 = 2) :=
  ⟨(compress_spec ⟨3, [[0, 1], [1, 2]]⟩ [true, false, true]).1,
   (compress_spec ⟨3, [[0, 1], [1, 2]]⟩ [true, false, true]).2.1 1 (by decide),
   (compress_spec ⟨3, [[0, 1], [1, 2]]⟩ [true, false, true]).2.2.1 2 (by decide)⟩

/-- Sparse matrix skeleton: its dimensions and the set of structurally
present (nonzero-pattern) entries. -/
structure SparseMatrixPattern where
  height : ℕ
  width : ℕ
  nonzeros : Finset (ℕ × ℕ)

/-- Couplings contributed by one element: all pairs of dofs of that
element. -/
def elemCouplings (sp : FESpaceM) (e : ℕ) : Finset (ℕ × ℕ) :=
  (sp.elemDofs.getD e []).toFinset ×ˢ (sp.elemDofs.getD e []).toFinset

/-- Modelled from the spec: assembly of a RestrictedBilinearForm — the
scatter runs only over elements marked in the restriction, into a sparse
structure whose dimensions are the full dof count of the space. -/
def AssembleRestricted (sp : FESpaceM) (restriction : List Bool) :
    SparseMatrixPattern :=
  ⟨sp.ndof, sp.ndof,
    (Finset.range sp.elemDofs.length).biUnion
      (fun e => if restriction.getD e false then elemCouplings sp e else ∅)⟩

/-- Modelled from the spec: unrestricted assembly of an ordinary
BilinearForm over all elements of the space. -/
def AssembleUnrestricted (sp : FESpaceM) : SparseMatrixPattern :=
  ⟨sp.ndof, sp.ndof, (Finset.range sp.elemDofs.length).biUnion (elemCouplings sp)⟩

/-- Number of structurally nonzero entries of an assembled matrix. -/
def nnz (mp : SparseMatrixPattern) : ℕ := mp.nonzeros.card

/-- Element restriction marking every element of the space. -/
def fullRestriction (sp : FESpaceM) : List Bool :=
  List.replicate sp.elemDofs.length true

/-- C6: a restricted assembly always has the dimensions of the unrestricted
one (the full dof count); with the full element restriction its nonzero
pattern, hence its nonzero count, equals the unrestricted one exactly; and
any restriction yields a nonzero count at most the unrestricted count. -/
theorem restricted_assembly_spec (sp : FESpaceM) (restriction : List Bool) :
    ((AssembleRestricted sp restriction).height = sp.ndof ∧
      (AssembleRestricted sp restriction).width = sp.ndof ∧
      (AssembleRestricted sp restriction).height = (AssembleUnrestricted sp).height ∧
      (AssembleRestricted sp restriction).width = (AssembleUnrestricted sp).width) ∧
    (AssembleRestricted sp (fullRestriction sp)).nonzeros =
      (AssembleUnrestricted sp).nonzeros ∧
    nnz (AssembleRestricted sp (fullRestriction sp)) = nnz (AssembleUnrestricted sp) ∧
    nnz (AssembleRestricted sp restriction) ≤ nnz (AssembleUnrestricted sp) := by
  have hfull : (AssembleRestricted sp (fullRestriction sp)).nonzeros =
      (AssembleUnrestricted sp).nonzeros := by
    show (Finset.range sp.elemDofs.length).biUnion _ =
      (Finset.range sp.elemDofs.length).biUnion _
    apply Finset.biUnion_congr rfl
    intro e he
    have helt : e < sp.elemDofs.length := Finset.mem_range.mp he
    have hget : (fullRestriction sp).getD e false = true := by
      rw [fullRestriction, List.getD_eq_getElem _ _ (by simpa using helt),
        List.getElem_replicate]
    rw [hget, if_pos rfl]
  refine ⟨⟨rfl, rfl, rfl, rfl⟩, hfull, by rw [nnz, nnz, hfull], ?_⟩
  apply Finset.card_le_card
  intro x hx
  rw [AssembleRestricted] at hx
  simp only [Finset.mem_biUnion] at hx
  obtain ⟨e, he, hmem⟩ := hx
  by_cases hr : restriction.getD e false = true
  · rw [if_pos hr] at hmem
    rw [AssembleUnrestricted]
    simp only [Finset.mem_biUnion]
    exact ⟨e, he, hmem⟩
  · rw [if_neg hr] at hmem
    exact absurd hmem (Finset.not_mem_empty x)

/-- Errors surfaced by assembly precondition checks. -/
inductive AssembleError
| StaleClassification
deriving DecidableEq, Repr

/-- Classification state derived from a level-set field; it records the
generation of the field it was computed from.  CutInfo.Update recomputes it
from the current field. -/
structure CutInfoState where
  gen : ℕ

/-- Modelled from the spec: CutInfo.Update, recomputing the classification
from the current field and recording its generation counter. -/
def cutInfoUpdate (phi : LevelSetField) : CutInfoState := ⟨phi.gen⟩

/-- Mutation of the level-set field: new vertex values, generation counter
bumped. -/
def fieldUpdate (phi : LevelSetField) (newVals : ℕ → ℚ) : LevelSetField :=
  ⟨newVals, phi.gen + 1⟩

/-- Modelled from the spec: assembly guarded by the StaleClassification
precondition — the generation counters of the field and of the
classification are compared and a mismatch is reported as an error, never
silently tolerated. -/
def assembleChecked (sp : FESpaceM) (restriction : List Bool)
    (phi : LevelSetField) (ci : CutInfoState) :
    Except AssembleError SparseMatrixPattern :=
  if ci.gen = phi.gen then Except.ok (AssembleRestricted sp restriction)
  else Except.error AssembleError.StaleClassification

/-- C7: starting from a classification in sync with the field, assembly
succeeds; after any field update without reclassification it fails with
StaleClassification (detected through the generation counters); and
reclassifying after the update makes assembly succeed again. -/
theorem stale_classification_detected (sp : FESpaceM) (restriction : List Bool)
    (phi : LevelSetField) (ci : CutInfoState) (newVals : ℕ → ℚ)
    (h : ci.gen = phi.gen) :
    assembleChecked sp restriction phi ci =
      Except.ok (AssembleRestricted sp restriction) ∧
    assembleChecked sp restriction (fieldUpdate phi newVals) ci =
      Except.error AssembleError.StaleClassification ∧
    assembleChecked sp restriction (fieldUpdate phi newVals)
        (cutInfoUpdate (fieldUpdate phi newVals)) =
      Except.ok (AssembleRestricted sp restriction) := by
  refine ⟨?_, ?_, ?_⟩
  · rw [assembleChecked, if_pos h]
  · rw [assembleChecked]
    have hne : ci.gen ≠ (fieldUpdate phi newVals).gen := by
      show ci.gen ≠ phi.gen + 1
      rw [h]
      exact Nat.ne_of_lt (Nat.lt_succ_self _)
    rw [if_neg hne]
  · rw [assembleChecked, if_pos (show (cutInfoUpdate (fieldUpdate phi newVals)).gen =
      (fieldUpdate phi newVals).gen from rfl)]

/-- Witness for C7 at a concrete space, field and classification: the
stale-assembly call errors and the in-sync calls succeed. -/
theorem stale_classification_detected_witness :
    assembleChecked ⟨2, [[0, 1]]⟩ [true] ⟨fun _ => -1, 0⟩ ⟨0⟩ =
      Except.ok (AssembleRestricted ⟨2, [[0, 1]]⟩ [true]) ∧
    assembleChecked ⟨2, [[0, 1]]⟩ [true]
        (fieldUpdate ⟨fun _ => -1, 0⟩ (fun _ => 1)) ⟨0⟩ =
      Except.error AssembleError.StaleClassification ∧
    assembleChecked ⟨2, [[0, 1]]⟩ [true]
        (fieldUpdate ⟨fun _ => -1, 0⟩ (fun _ => 1))
        (cutInfoUpdate (fieldUpdate ⟨fun _ => -1, 0⟩ (fun _ => 1))) =
      Except.ok (AssembleRestricted ⟨2, [[0, 1]]⟩ [true]) :=
  stale_classification_detected ⟨2, [[0, 1]]⟩ [true] ⟨fun _ => -1, 0⟩ ⟨0⟩
    (fun _ => 1) rfl

/-- Dofs with support on the given element set, as a Finset of dof
indices (the Finset form of GetDofsOfElements). -/
def dofsOfElemsF (sp : FESpaceM) (elset : List Bool) : Finset ℕ :=
  (Finset.range sp.ndof).filter (fun d => hasDofOnElems sp elset d = true)

theorem dofsOfElemsF_mono (sp : FESpaceM) (els1 els2 : List Bool)
    (h : bsSubset els1 els2) : dofsOfElemsF sp els1 ⊆ dofsOfElemsF sp els2 := by
  intro d hd
  rw [dofsOfElemsF, Finset.mem_filter] at hd ⊢
  exact ⟨hd.1, hasDofOnElems_mono sp els1 els2 h d hd.2⟩

/-- Dofs of the standard space supported on the HASNEG elements: the active
dofs of the first compressed dual space of cutfem.ipynb. -/
def negDofs (sp : FESpaceM) (m : Mesh) (phi : LevelSetField) : Finset ℕ :=
  dofsOfElemsF sp (GetElementsOfType m phi COMBINED_DOMAIN_TYPE.HASNEG)

/-- Dofs of the standard space supported on the HASPOS elements: the active
dofs of the second compressed dual space of cutfem.ipynb. -/
def posDofs (sp : FESpaceM) (m : Mesh) (phi : LevelSetField) : Finset ℕ :=
  dofsOfElemsF sp (GetElementsOfType m phi COMBINED_DOMAIN_TYPE.HASPOS)

/-- Dofs of the standard space supported on at least one IF element: the
cut standard dofs, each of which receives one enrichment dof. -/
def cutDofs (sp : FESpaceM) (m : Mesh) (phi : LevelSetField) : Finset ℕ :=
  dofsOfElemsF sp (GetElementsOfType m phi COMBINED_DOMAIN_TYPE.CDOM_IF)

/-- Modelled from the spec: the XFEM enrichment space of cutfem.ipynb,
copying one shape function per standard dof with support on a cut (IF)
element and storing a sign for each (true meaning POS). -/
structure XFESpaceS where
  ndof : ℕ
  sign : ℕ → Bool

/-- Construction of the enrichment space from the standard space and the
cut information. -/
def XFESpace (sp : FESpaceM) (m : Mesh) (phi : LevelSetField)
    (sign : ℕ → Bool) : XFESpaceS :=
  ⟨(cutDofs sp m phi).card, sign⟩

/-- Modelled from the spec: the neg filter operator, keeping the
enrichment coefficients whose stored sign is NEG (support on the negative
side) and zeroing the rest. -/
def negFilter (sign : ℕ → Bool) (cd : Finset ℕ) (cx : ℕ → ℚ) : ℕ → ℚ :=
  fun d => if d ∈ cd ∧ sign d = false then cx d else 0

/-- Modelled from the spec: the pos filter operator, keeping the
enrichment coefficients whose stored sign is POS. -/
def posFilter (sign : ℕ → Bool) (cd : Finset ℕ) (cx : ℕ → ℚ) : ℕ → ℚ :=
  fun d => if d ∈ cd ∧ sign d = true then cx d else 0

/-- Negative-side composition of cutfem.ipynb: u_minus = u_std + neg(u_x),
per dof. -/
def uMinus (sign : ℕ → Bool) (cd : Finset ℕ) (cstd cx : ℕ → ℚ) : ℕ → ℚ :=
  fun d => cstd d + negFilter sign cd cx d

/-- Positive-side composition of cutfem.ipynb: u_plus = u_std + pos(u_x),
per dof. -/
def uPlus (sign : ℕ → Bool) (cd : Finset ℕ) (cstd cx : ℕ → ℚ) : ℕ → ℚ :=
  fun d => cstd d + posFilter sign cd cx d

/-- C8: the enrichment space has exactly one dof per cut standard dof;
its dof budget matches the compressed dual-space construction (supported
dofs plus enrichments equal HASNEG dofs plus HASPOS dofs); and the
decompositions u_minus = u_std + neg(u_x), u_plus = u_std + pos(u_x)
reproduce exactly the compressed dual space: every pair of dual coefficient
vectors is realized by a unique XFEM coefficient pair.  The hypothesis
states that a dof supported on both sides is supported on a cut element,
which holds for classifications induced by a continuous level set. -/
theorem xfespace_equiv_dual (sp : FESpaceM) (m : Mesh) (phi : LevelSetField)
    (sign : ℕ → Bool)
    (hinter : negDofs sp m phi ∩ posDofs sp m phi ⊆ cutDofs sp m phi) :
    (XFESpace sp m phi sign).ndof = (cutDofs sp m phi).card ∧
    (negDofs sp m phi ∪ posDofs sp m phi).card + (cutDofs sp m phi).card =
      (negDofs sp m phi).card + (posDofs sp m phi).card ∧
    (∀ cneg cpos : ℕ → ℚ, ∃ cstd cx : ℕ → ℚ,
      (∀ d : ℕ, d ∉ cutDofs sp m phi → cx d = 0) ∧
      (∀ d : ℕ, d ∈ negDofs sp m phi →
        uMinus sign (cutDofs sp m phi) cstd cx d = cneg d) ∧
      (∀ d : ℕ, d ∈ posDofs sp m phi →
        uPlus sign (cutDofs sp m phi) cstd cx d = cpos d)) ∧
    (∀ cstd cx cstd2 cx2 : ℕ → ℚ,
      (∀ d : ℕ, d ∉ cutDofs sp m phi → cx d = 0 ∧ cx2 d = 0) →
      (∀ d : ℕ, d ∉ negDofs sp m phi ∪ posDofs sp m phi →
        cstd d = 0 ∧ cstd2 d = 0) →
      (∀ d : ℕ, d ∈ negDofs sp m phi →
        uMinus sign (cutDofs sp m phi) cstd cx d =
          uMinus sign (cutDofs sp m phi) cstd2 cx2 d) →
      (∀ d : ℕ, d ∈ posDofs sp m phi →
        uPlus sign (cutDofs sp m phi) cstd cx d =
          uPlus sign (cutDofs sp m phi) cstd2 cx2 d) →
      cstd = cstd2 ∧ cx = cx2) := by
  have hsubn : cutDofs sp m phi ⊆ negDofs sp m phi :=
    dofsOfElemsF_mono sp _ _
      (bsSubset_getElementsOfType m phi COMBINED_DOMAIN_TYPE.CDOM_IF
        COMBINED_DOMAIN_TYPE.HASNEG (by decide))
  have hsubp : cutDofs sp m phi ⊆ posDofs sp m phi :=
    dofsOfElemsF_mono sp _ _
      (bsSubset_getElementsOfType m phi COMBINED_DOMAIN_TYPE.CDOM_IF
        COMBINED_DOMAIN_TYPE.HASPOS (by decide))
  have hintereq : negDofs sp m phi ∩ posDofs sp m phi = cutDofs sp m phi :=
    Finset.Subset.antisymm hinter (Finset.subset_inter hsubn hsubp)
  refine ⟨rfl, ?_, ?_, ?_⟩
  · rw [← hintereq]
    exact Finset.card_union_add_card_inter _ _
  · intro cneg cpos
    refine ⟨fun d => if d ∈ cutDofs sp m phi then
        (if sign d = true then cneg d else cpos d)
      else if d ∈ negDofs sp m phi then cneg d else cpos d,
      fun d => if d ∈ cutDofs sp m phi then
        (if sign d = true then cpos d - cneg d else cneg d - cpos d)
      else 0, ?_, ?_, ?_⟩
    · intro d hd
      simp [hd]
    · intro d hd
      by_cases hc : d ∈ cutDofs sp m phi
      · by_cases hs : sign d = true
        · simp [uMinus, negFilter, hc, hs]
        · simp only [Bool.not_eq_true] at hs
          simp [uMinus, negFilter, hc, hs]
      · simp [uMinus, negFilter, hc, hd]
    · intro d hd
      by_cases hc : d ∈ cutDofs sp m phi
      · by_cases hs : sign d = true
        · simp [uPlus, posFilter, hc, hs]
        · simp only [Bool.not_eq_true] at hs
          simp [uPlus, posFilter, hc, hs]
      · have hn : d ∉ negDofs sp m phi := fun hmem =>
          hc (hinter (Finset.mem_inter.mpr ⟨hmem, hd⟩))
        simp [uPlus, posFilter, hc, hn]
  · intro cstd cx cstd2 cx2 hsx hss hmagree hpagree
    have key : ∀ d : ℕ, cstd d = cstd2 d ∧ cx d = cx2 d := by
      intro d
      by_cases hc : d ∈ cutDofs sp m phi
      · have hdn : d ∈ negDofs sp m phi := hsubn hc
        have hdp : d ∈ posDofs sp m phi := hsubp hc
        have hm := hmagree d hdn
        have hp := hpagree d hdp
        by_cases hs : sign d = true
        · simp [uMinus, uPlus, negFilter, posFilter, hc, hs] at hm hp
          exact ⟨hm, by linarith⟩
        · simp only [Bool.not_eq_true] at hs
          simp [uMinus, uPlus, negFilter, posFilter, hc, hs] at hm hp
          exact ⟨hp, by linarith⟩
      · obtain ⟨hx1, hx2⟩ := hsx d hc
        refine ⟨?_, by rw [hx1, hx2]⟩
        by_cases hdn : d ∈ negDofs sp m phi
        · have hm := hmagree d hdn
          simp [uMinus, negFilter, hc] at hm
          exact hm
        · by_cases hdp : d ∈ posDofs sp m phi
          · have hp := hpagree d hdp
            simp [uPlus, posFilter, hc] at hp
            exact hp
          · have hs0 := hss d (by
              rw [Finset.mem_union]
              rintro (h1 | h2)
              · exact hdn h1
              · exact hdp h2)
            rw [hs0.1, hs0.2]
    exact ⟨funext (fun d => (key d).1), funext (fun d => (key d).2)⟩

/-- Witness for C8 on a concrete three-dof space over a two-element mesh
with one NEG and one IF element (stored signs all POS); the side-support
hypothesis holds there by computation. -/
theorem xfespace_equiv_dual_witness :
    (XFESpace ⟨3, [[0, 1], [1, 2]]⟩ ⟨2, fun e => if e = 0 then [0, 1] else [1, 2]⟩
        ⟨fun v => if v = 2 then 1 else -1, 0⟩ (fun _ => true)).ndof =
      (cutDofs ⟨3, [[0, 1], [1, 2]]⟩ ⟨2, fun e => if e = 0 then [0, 1] else [1, 2]⟩
        ⟨fun v => if v = 2 then 1 else -1, 0⟩).card ∧
    (negDofs ⟨3, [[0, 1], [1, 2]]⟩ ⟨2, fun e => if e = 0 then [0, 1] else [1, 2]⟩
        ⟨fun v => if v = 2 then 1 else -1, 0⟩ ∪
      posDofs ⟨3, [[0, 1], [1, 2]]⟩ ⟨2, fun e => if e = 0 then [0, 1] else [1, 2]⟩
        ⟨fun v => if v = 2 then 1 else -1, 0⟩).card +
      (cutDofs ⟨3, [[0, 1], [1, 2]]⟩ ⟨2, fun e => if e = 0 then [0, 1] else [1, 2]⟩
        ⟨fun v => if v = 2 then 1 else -1, 0⟩).card =
      (negDofs ⟨3, [[0, 1], [1, 2]]⟩ ⟨2, fun e => if e = 0 then [0, 1] else [1, 2]⟩
        ⟨fun v => if v = 2 then 1 else -1, 0⟩).card +
      (posDofs ⟨3, [[0, 1], [1, 2]]⟩ ⟨2, fun e => if e = 0 then [0, 1] else [1, 2]⟩
        ⟨fun v => if v = 2 then 1 else -1, 0⟩).card :=
  ⟨(xfespace_equiv_dual ⟨3, [[0, 1], [1, 2]]⟩
      ⟨2, fun e => if e = 0 then [0, 1] else [1, 2]⟩
      ⟨fun v => if v = 2 then 1 else -1, 0⟩ (fun _ => true) (by decide)).1,
   (xfespace_equiv_dual ⟨3, [[0, 1], [1, 2]]⟩
      ⟨2, fun e => if e = 0 then [0, 1] else [1, 2]⟩
      ⟨fun v => if v = 2 then 1 else -1, 0⟩ (fun _ => true) (by decide)).2.1⟩

end NgsXFem
